import Mathlib

/-!
# Verification of the boundary-condition engine of pyLBM (`pyLBM/boundary.py`)

Shallow embedding of the boundary module.  A distribution field `f` is a
function from a position `(velocity index, spatial index)` to a rational;
NumPy float arithmetic is idealised as exact rational (resp. real, for the
continuity statement) arithmetic.  The stencil and the domain/locator data
(flag-derived index lists and distances) are external collaborators of this
module and are modelled as structures of functions, exactly the pieces of
their interface that `boundary.py` reads.

NumPy fancy-indexed assignment `f[tuple(istore)] = expr` evaluates `expr`
against the old field and then writes the listed destinations left to right
(so a repeated destination keeps the last write); `scatter` below models
exactly that.
-/

namespace PyLBM

/-- A spatial multi-index, one integer per axis (a column of `istore[1:]`). -/
abbrev SpatialIndex := List ℤ

/-- A position in the distribution field: velocity index (row 0 of `istore`)
and spatial index (the remaining rows). -/
abbrev Pos := Nat × SpatialIndex

/-- The distribution field `f`. -/
abbrev DF := Pos → ℚ

/-- Default position used with `List.getD`. -/
def pd : Pos := (0, [])

/-- The part of the `Stencil` collaborator's interface read by `boundary.py`:
`get_symmetric()`, `get_all_velocities()`, `num`, `nv_ptr`, `unum2index`. -/
structure Stencil where
  sym : Nat → Nat
  vel : Nat → SpatialIndex
  num : Nat → List Nat
  nv_ptr : Nat → Nat
  unum2index : Nat → Nat

/-- `x + v` componentwise: `self.istore[1:] + v[k].T` for one column. -/
def vadd (x v : SpatialIndex) : SpatialIndex :=
  List.zipWith (fun a b => a + b) x v

/-- `x + 2*v` componentwise: `self.istore[1:] + 2*v[k].T` for one column. -/
def vadd2 (x v : SpatialIndex) : SpatialIndex :=
  List.zipWith (fun a b => a + 2 * b) x v

/-- `indices[axis] += d` on a single column: the axis-restricted Neumann
variants modify one row of the spatial index block in place. -/
def axisAdd (x : SpatialIndex) (axis : Nat) (d : ℤ) : SpatialIndex :=
  x.set axis (x.getD axis 0 + d)

/-- NumPy fancy-indexed assignment: write the (destination, value) pairs in
order onto `f`; the value lists were computed from the old `f` by the caller. -/
def scatter (writes : List (Pos × ℚ)) (f : DF) : DF :=
  writes.foldl (fun g w => fun p => if w.1 = p then w.2 else g p) f

/-- State of a `Boundary_method` instance: the batched tables set by
`Boundary_method.__init__` plus the derived `rhs`, `iload` and (for the
Bouzidi variants) `s`.  `feq` has one row per distribution component and one
column per `istore` column. -/
structure BMState where
  istore : List Pos
  ilabel : List Int
  distance : List ℚ
  stencil : Stencil
  feq : Nat → Nat → ℚ
  rhs : List ℚ
  iload : List (List Pos)
  s : List ℚ

/-- `Boundary_method.__init__`: store the tables, zero `feq` and `rhs`,
empty `iload` (`self.s` is allocated uninitialised by `Bouzidi` variants and
is fully overwritten by `set_iload`; it is zero-filled here). -/
def BMinit (istore : List Pos) (ilabel : List Int) (distance : List ℚ)
    (stencil : Stencil) : BMState :=
  { istore := istore, ilabel := ilabel, distance := distance,
    stencil := stencil, feq := fun _ _ => 0,
    rhs := List.replicate istore.length 0, iload := [],
    s := List.replicate istore.length 0 }

/-- `bounce_back.set_iload`: append the single load table
`(ksym, istore[1:] + v[k])`. -/
def bounce_back_set_iload (b : BMState) : BMState :=
  { b with iload := b.iload ++
      [b.istore.map (fun c => (b.stencil.sym c.1, vadd c.2 (b.stencil.vel c.1)))] }

/-- `bounce_back.set_rhs`: `rhs[:] = feq[k, arange] - feq[ksym, arange]`. -/
def bounce_back_set_rhs (b : BMState) : BMState :=
  { b with rhs := (List.range b.istore.length).map (fun j =>
      b.feq (b.istore.getD j pd).1 j
        - b.feq (b.stencil.sym (b.istore.getD j pd).1) j) }

/-- `bounce_back.update`: `f[tuple(istore)] = f[tuple(iload[0])] + rhs`. -/
def bounce_back_update (b : BMState) (f : DF) : DF :=
  scatter (b.istore.zip
    (List.zipWith (fun l r => f l + r) (b.iload.getD 0 []) b.rhs)) f

/-- One column of `Bouzidi_bounce_back.set_iload`: the two load positions and
the interpolation weight, chosen by the `distance < .5` mask (the masked
NumPy block is elementwise over columns). -/
def bouzidi_col (st : Stencil) (d : ℚ) (c : Pos) : Pos × Pos × ℚ :=
  if d < 1/2 then
    ((st.sym c.1, vadd c.2 (st.vel c.1)),
     (st.sym c.1, vadd2 c.2 (st.vel c.1)), 2 * d)
  else
    ((st.sym c.1, vadd c.2 (st.vel c.1)),
     (c.1, vadd c.2 (st.vel c.1)), 1/2 / d)

/-- `Bouzidi_bounce_back.set_iload`: append the two load tables and fill `s`. -/
def Bouzidi_set_iload (b : BMState) : BMState :=
  { b with
    iload := b.iload ++
      [(List.zipWith (fun d c => bouzidi_col b.stencil d c) b.distance b.istore).map
          (fun t => t.1),
       (List.zipWith (fun d c => bouzidi_col b.stencil d c) b.distance b.istore).map
          (fun t => t.2.1)],
    s := (List.zipWith (fun d c => bouzidi_col b.stencil d c) b.distance b.istore).map
          (fun t => t.2.2) }

/-- `Bouzidi_bounce_back.set_rhs` (textually the same as `bounce_back.set_rhs`
in the source). -/
def Bouzidi_set_rhs (b : BMState) : BMState :=
  { b with rhs := (List.range b.istore.length).map (fun j =>
      b.feq (b.istore.getD j pd).1 j
        - b.feq (b.stencil.sym (b.istore.getD j pd).1) j) }

/-- Per-column values of the Bouzidi update:
`s*f[iload[0]] + (1 - s)*f[iload[1]] + rhs`. -/
def bouzidiVals (f : DF) : List ℚ → List Pos → List Pos → List ℚ → List ℚ
  | sv :: ss, l1 :: ls1, l2 :: ls2, r :: rs =>
      (sv * f l1 + (1 - sv) * f l2 + r) :: bouzidiVals f ss ls1 ls2 rs
  | _, _, _, _ => []

/-- `Bouzidi_bounce_back.update`:
`f[tuple(istore)] = s*f[tuple(iload[0])] + (1 - s)*f[tuple(iload[1])] + rhs`. -/
def Bouzidi_update (b : BMState) (f : DF) : DF :=
  scatter (b.istore.zip
    (bouzidiVals f b.s (b.iload.getD 0 []) (b.iload.getD 1 []) b.rhs)) f

/-- `anti_bounce_back.set_rhs`: `rhs[:] = feq[k, arange] + feq[ksym, arange]`
(the load derivation is inherited from `bounce_back`). -/
def anti_bounce_back_set_rhs (b : BMState) : BMState :=
  { b with rhs := (List.range b.istore.length).map (fun j =>
      b.feq (b.istore.getD j pd).1 j
        + b.feq (b.stencil.sym (b.istore.getD j pd).1) j) }

/-- `anti_bounce_back.update`: `f[tuple(istore)] = -f[tuple(iload[0])] + rhs`. -/
def anti_bounce_back_update (b : BMState) (f : DF) : DF :=
  scatter (b.istore.zip
    (List.zipWith (fun l r => -f l + r) (b.iload.getD 0 []) b.rhs)) f

/-- Per-column values of the Bouzidi anti-bounce-back update:
`-s*f[iload[0]] + (s - 1)*f[iload[1]] + rhs`. -/
def bouzidiAntiVals (f : DF) : List ℚ → List Pos → List Pos → List ℚ → List ℚ
  | sv :: ss, l1 :: ls1, l2 :: ls2, r :: rs =>
      (-sv * f l1 + (sv - 1) * f l2 + r) :: bouzidiAntiVals f ss ls1 ls2 rs
  | _, _, _, _ => []

/-- `Bouzidi_anti_bounce_back.update` (load derivation and `s` inherited from
`Bouzidi_bounce_back`). -/
def Bouzidi_anti_update (b : BMState) (f : DF) : DF :=
  scatter (b.istore.zip
    (bouzidiAntiVals f b.s (b.iload.getD 0 []) (b.iload.getD 1 []) b.rhs)) f

/-- `Neumann.set_iload`: append the single load table `(k, istore[1:] + v[k])`
(own velocity index, not the symmetric one). -/
def Neumann_set_iload (b : BMState) : BMState :=
  { b with iload := b.iload ++
      [b.istore.map (fun c => (c.1, vadd c.2 (b.stencil.vel c.1)))] }

/-- `Neumann.update`: `f[tuple(istore)] = f[tuple(iload[0])]`. -/
def Neumann_update (b : BMState) (f : DF) : DF :=
  scatter (b.istore.zip ((b.iload.getD 0 []).map f)) f

/-- `Neumann_x.set_iload`: `indices[0] += v[k].T[0]`. -/
def Neumann_x_set_iload (b : BMState) : BMState :=
  { b with iload := b.iload ++
      [b.istore.map (fun c => (c.1, axisAdd c.2 0 ((b.stencil.vel c.1).getD 0 0)))] }

/-- `Neumann_y.set_iload`: `indices[1] += v[k].T[1]`. -/
def Neumann_y_set_iload (b : BMState) : BMState :=
  { b with iload := b.iload ++
      [b.istore.map (fun c => (c.1, axisAdd c.2 1 ((b.stencil.vel c.1).getD 1 0)))] }

/-- `Neumann_z.set_iload` exactly as written in the source:
`indices[1] += v[k].T[2]` — the spatial row with index 1 (the y axis) is
offset by component 2 (the z component) of the velocity. -/
def Neumann_z_set_iload (b : BMState) : BMState :=
  { b with iload := b.iload ++
      [b.istore.map (fun c => (c.1, axisAdd c.2 1 ((b.stencil.vel c.1).getD 2 0)))] }

/-- Modelled from the spec: the `Neumann_z` load table as §4.4 of the spec
describes it — "only the named axis offset by velocity[k]'s component on that
axis", that is `indices[2] += v[k].T[2]`.  Missing from the source in this
form: the source's `Neumann_z.set_iload` writes row 1 instead of row 2. -/
def Neumann_z_set_iload_spec (b : BMState) : BMState :=
  { b with iload := b.iload ++
      [b.istore.map (fun c => (c.1, axisAdd c.2 2 ((b.stencil.vel c.1).getD 2 0)))] }

/-! ## The Boundary compiler (`Boundary.__init__`, lines 87-122)

The per-(label, unique velocity) locator output (`Boundary_Velocity.indices`
as a list of spatial-index columns, and `.distance`) is domain data consumed
by the compiler; it is modelled as part of the domain collaborator. -/

/-- The domain collaborator data read by `Boundary.__init__`:
`list_of_labels()` and, for each label and unique-velocity index, the
`Boundary_Velocity` record (indices already shifted by the velocity). -/
structure DomainData where
  labels : List Int
  bvIndices : Int → Nat → List SpatialIndex
  bvDistance : Int → Nat → List ℚ

/-- The concrete boundary-method classes used as `method` values. -/
inductive BCMethod
  | bounceBack | bouzidiBounceBack | antiBounceBack | bouzidiAntiBounceBack
  | neumann | neumannX | neumannY | neumannZ
deriving DecidableEq

/-- One accumulated table of a method group: `istore[v]`, `ilabel[v]`,
`distance[v]` of the source, with `istore` kept as a list of columns. -/
structure MethodTable where
  istore : List Pos
  ilabel : List Int
  distance : List ℚ
deriving DecidableEq

def emptyTable : MethodTable := { istore := [], ilabel := [], distance := [] }

/-- Horizontal concatenation of two method tables (`np.concatenate` on each
of the three arrays). -/
def tableAppend (t u : MethodTable) : MethodTable :=
  { istore := t.istore ++ u.istore, ilabel := t.ilabel ++ u.ilabel,
    distance := t.distance ++ u.distance }

/-- The contribution of one `(label, method family k, enumerated velocity
(inumk, numk))` step of the loop: velocity row `inumk + nv_ptr[k]` over the
locator's index columns, the label repeated, and the locator's distances. -/
def velChunk (D : DomainData) (st : Stencil) (label : Int) (fam : Nat)
    (inumk : Nat) (numk : Nat) : MethodTable :=
  { istore := (D.bvIndices label (st.unum2index numk)).map
      (fun x => (inumk + st.nv_ptr fam, x)),
    ilabel := (D.bvIndices label (st.unum2index numk)).map (fun _ => label),
    distance := D.bvDistance label (st.unum2index numk) }

/-- The `istore`/`ilabel`/`distance` `OrderedDict` update: append into the
existing entry for this method, else push a new entry at the end. -/
def insertAppend : List (BCMethod × MethodTable) → BCMethod × MethodTable →
    List (BCMethod × MethodTable)
  | [], e => [e]
  | (k, t) :: rest, e =>
      if k = e.1 then (k, tableAppend t e.2) :: rest
      else (k, t) :: insertAppend rest e

/-- The innermost loop `for inumk, numk in enumerate(stencil.num[k])` over an
explicit list of `(inumk, numk)` pairs: skip empty locator records, insert
the chunk otherwise. -/
def compileFam (D : DomainData) (st : Stencil) (label : Int) (fam : Nat)
    (mk : BCMethod) (ps : List (Nat × Nat))
    (acc : List (BCMethod × MethodTable)) : List (BCMethod × MethodTable) :=
  ps.foldl (fun a p =>
    if D.bvIndices label (st.unum2index p.2) = [] then a
    else insertAppend a (mk, velChunk D st label fam p.1 p.2)) acc

/-- The loop `for k, v in methods.items()` of `Boundary.__init__` for one
label (`methods` as an ordered association list family ↦ method class). -/
def compileLabel (D : DomainData) (st : Stencil) (label : Int)
    (methods : List (Nat × BCMethod)) (acc : List (BCMethod × MethodTable)) :
    List (BCMethod × MethodTable) :=
  methods.foldl (fun a fm =>
    compileFam D st label fm.1 fm.2 ((st.num fm.1).enum) a) acc

/-- Python dict errors raised by `Boundary.__init__`: `dico_bound[label]`
with a missing label, and `dico_bound[label]['method']` with a missing
`method` key, both `KeyError`. -/
inductive BErr
  | labelKeyError (label : Int)
  | methodKeyError (label : Int)
deriving DecidableEq

/-- The configuration record for one label: the optional `value` entry
(read with `.get('value', None)`, never raising) and the optional `method`
entry (read with `[...]`, raising when absent). -/
structure LabelConf (V : Type) where
  value : Option V
  method : Option (List (Nat × BCMethod))

/-- First-match association lookup (Python dict access). -/
def assocFind {α : Type} : List (Int × α) → Int → Option α
  | [], _ => none
  | (k, v) :: rest, key => if k = key then some v else assocFind rest key

/-- The label loop of `Boundary.__init__`: labels `-1` (periodic) and `-2`
(interface) are passed over; any other label is looked up in
`dico['boundary_conditions']` and its `method` entry is required. -/
def compileGo {V : Type} (D : DomainData) (st : Stencil)
    (dico : List (Int × LabelConf V)) :
    List Int → List (BCMethod × MethodTable) →
    Except BErr (List (BCMethod × MethodTable))
  | [], acc => .ok acc
  | label :: rest, acc =>
      if label = -1 then compileGo D st dico rest acc
      else if label = -2 then compileGo D st dico rest acc
      else
        match assocFind dico label with
        | none => .error (.labelKeyError label)
        | some conf =>
            match conf.method with
            | none => .error (.methodKeyError label)
            | some methods =>
                compileGo D st dico rest (compileLabel D st label methods acc)

/-- `Boundary.__init__`'s table-building pass over all domain labels. -/
def boundaryCompile {V : Type} (D : DomainData) (st : Stencil)
    (dico : List (Int × LabelConf V)) :
    Except BErr (List (BCMethod × MethodTable)) :=
  compileGo D st dico D.labels []

/-- The `method` entry of a label's configuration, when label and entry both
exist. -/
def methodOf {V : Type} (dico : List (Int × LabelConf V)) (label : Int) :
    Option (List (Nat × BCMethod)) :=
  (assocFind dico label).bind (fun c => c.method)

/-! ## `Boundary_method.prepare_rhs` (lines 165-206)

The external chain — calling the prescribed value on distribution/moment
objects at the wall coordinates, then `scheme.equilibrium` and
`scheme.m2f` — is a collaborator; it is abstracted as an evaluator `evalF`
giving the equilibrium chunk (row, column ↦ value) produced for a label from
a callable and its optional extra-arguments pack.  What is modelled
faithfully is the control flow of `prepare_rhs` itself: the skip of absent
values, the tuple-arity check that only logs, the element accesses
`value[1]` / `value[0]` that can raise, and the write of `feq` at the
label's columns only. -/

/-- An element of a prescribed-value tuple: a callable or an extra-arguments
pack (anything `coords + value[1]` concatenates with). -/
inductive PyObj (F A : Type)
  | func (g : F)
  | argpack (a : A)

/-- A prescribed boundary value: `None`, a function, or a tuple. -/
inductive BCValue (F A : Type)
  | vnone
  | vfn (g : F)
  | vtup (elems : List (PyObj F A))

/-- Python exceptions raised on the `prepare_rhs` tuple path. -/
inductive PyErr
  | indexError
  | typeError
deriving DecidableEq

/-- State threaded through `prepare_rhs`: the equilibrium table and the
number of configuration errors logged so far. -/
structure PrepState where
  feq : Nat → Nat → ℚ
  errors : Nat

/-- `self.feq[:, indices[0]] = ...` where `indices = np.where(ilabel == key)`:
overwrite exactly the columns carrying `key`. -/
def writeFeq (ilabel : List Int) (key : Int) (chunk : Nat → Nat → ℚ)
    (st : PrepState) : PrepState :=
  { st with feq := fun r c =>
      if ilabel[c]? = some key then chunk r c else st.feq r c }

/-- One iteration of the `for key, value in self.value_bc.items()` loop.
For a tuple value: a wrong arity is logged (`errors + 1`) and execution
continues; `args = coords + value[1]` then raises `IndexError` when the
tuple has fewer than two elements and `TypeError` when `value[1]` is not an
arguments pack; `value[0](f, m, *args)` raises `TypeError` when `value[0]`
is not callable; otherwise the equilibrium chunk is written at the label's
columns. -/
def prepare_one {F A : Type} (evalF : F → Option A → Nat → Nat → ℚ)
    (ilabel : List Int) (st : PrepState) :
    Int × BCValue F A → Except PyErr PrepState
  | (_, .vnone) => .ok st
  | (key, .vfn g) => .ok (writeFeq ilabel key (evalF g none) st)
  | (key, .vtup l) =>
      let st1 := if l.length = 2 then st else { st with errors := st.errors + 1 }
      match (l[1]? : Option (PyObj F A)) with
      | none => .error .indexError
      | some (.func _) => .error .typeError
      | some (.argpack a) =>
          match (l[0]? : Option (PyObj F A)) with
          | none => .error .indexError
          | some (.argpack _) => .error .typeError
          | some (.func g) => .ok (writeFeq ilabel key (evalF g (some a)) st1)

/-- The `prepare_rhs` loop over the `value_bc` items; an exception raised by
one iteration aborts the whole loop. -/
def prepare_rhs {F A : Type} (evalF : F → Option A → Nat → Nat → ℚ)
    (ilabel : List Int) : List (Int × BCValue F A) → PrepState →
    Except PyErr PrepState
  | [], st => .ok st
  | e :: rest, st =>
      match prepare_one evalF ilabel st e with
      | .error err => .error err
      | .ok st1 => prepare_rhs evalF ilabel rest st1

/-- The equilibrium entry at (row, column) of a `prepare_rhs` outcome, when
the run succeeded. -/
def feqAt (r c : Nat) : Except PyErr PrepState → Option ℚ
  | .ok st => some (st.feq r c)
  | .error _ => none

/-- The logged-error count of a `prepare_rhs` outcome, when the run
succeeded. -/
def errorsAt : Except PyErr PrepState → Option Nat
  | .ok st => some st.errors
  | .error _ => none

/-! ## Real-valued Bouzidi branch formulas (for the continuity property)

The two `s` branches of `Bouzidi_bounce_back.set_iload` and the update
formula of `Bouzidi_bounce_back.update`, read over the reals. -/

/-- `s = 2.*distance`, the branch taken when `distance < .5`. -/
noncomputable def bouzidi_s_low (d : ℝ) : ℝ := 2 * d

/-- `s = .5/distance`, the branch taken when `distance >= .5`. -/
noncomputable def bouzidi_s_high (d : ℝ) : ℝ := 1/2 / d

/-- The Bouzidi update value `s*f[load1] + (1 - s)*f[load2] + rhs` at one
column, as a function of the weight and the fixed field/forcing values. -/
noncomputable def bouzidiValue (s a b r : ℝ) : ℝ := s * a + (1 - s) * b + r

/-! ## Helper lemmas -/

theorem getD_map_of_lt {α β : Type} (g : α → β) (l : List α) (j : Nat)
    (h : j < l.length) (e : β) (d : α) :
    (l.map g).getD j e = g (l.getD j d) := by
  induction l generalizing j with
  | nil => simp at h
  | cons a t ih =>
      cases j with
      | zero => rfl
      | succ j =>
          simp only [List.map_cons, List.getD_cons_succ]
          exact ih j (Nat.lt_of_succ_lt_succ h)

theorem getD_zipWith_of_lt {α β γ : Type} (g : α → β → γ) (l1 : List α)
    (l2 : List β) (j : Nat) (h1 : j < l1.length) (h2 : j < l2.length)
    (e : γ) (d1 : α) (d2 : β) :
    (List.zipWith g l1 l2).getD j e = g (l1.getD j d1) (l2.getD j d2) := by
  induction l1 generalizing l2 j with
  | nil => simp at h1
  | cons a t ih =>
      cases l2 with
      | nil => simp at h2
      | cons b u =>
          cases j with
          | zero => rfl
          | succ j =>
              simp only [List.zipWith_cons_cons, List.getD_cons_succ]
              exact ih u j (Nat.lt_of_succ_lt_succ h1)
                (Nat.lt_of_succ_lt_succ h2)

theorem getD_range_of_lt (n j : Nat) (h : j < n) (d : Nat) :
    (List.range n).getD j d = j := by
  simp [List.getD, List.getElem?_range h]

theorem getD_zip_mem {α β : Type} (l1 : List α) (l2 : List β) (j : Nat)
    (h1 : j < l1.length) (h2 : j < l2.length) (d1 : α) (d2 : β) :
    (l1.getD j d1, l2.getD j d2) ∈ l1.zip l2 := by
  induction l1 generalizing l2 j with
  | nil => simp at h1
  | cons a t ih =>
      cases l2 with
      | nil => simp at h2
      | cons b u =>
          cases j with
          | zero => simp
          | succ j =>
              simp only [List.getD_cons_succ, List.zip_cons_cons, List.mem_cons]
              exact Or.inr (ih u j (Nat.lt_of_succ_lt_succ h1)
                (Nat.lt_of_succ_lt_succ h2))

theorem scatter_frame (writes : List (Pos × ℚ)) (f : DF) (p : Pos)
    (hp : p ∉ writes.map Prod.fst) : scatter writes f p = f p := by
  induction writes generalizing f with
  | nil => rfl
  | cons w rest ih =>
      simp only [List.map_cons, List.mem_cons, not_or] at hp
      simp only [scatter, List.foldl_cons]
      have := ih (fun q => if w.1 = q then w.2 else f q) hp.2
      simp only [scatter] at this
      rw [this, if_neg (fun he => hp.1 he.symm)]

theorem scatter_lookup (writes : List (Pos × ℚ)) (f : DF) (p : Pos) (v : ℚ)
    (hnd : (writes.map Prod.fst).Nodup) (hmem : (p, v) ∈ writes) :
    scatter writes f p = v := by
  induction writes generalizing f with
  | nil => simp at hmem
  | cons w rest ih =>
      simp only [List.map_cons, List.nodup_cons] at hnd
      rcases List.mem_cons.1 hmem with he | hm
      · subst he
        simp only [scatter, List.foldl_cons]
        have h2 := scatter_frame rest
          (fun q => if (p, v).1 = q then (p, v).2 else f q) p hnd.1
        simp only [scatter] at h2
        rw [h2]
        simp
      · have hne : w.1 ≠ p := by
          intro he
          exact hnd.1 (he ▸ List.mem_map_of_mem Prod.fst hm)
        simp only [scatter, List.foldl_cons]
        exact ih (fun q => if w.1 = q then w.2 else f q) hnd.2 hm

theorem bouzidiVals_length (f : DF) (ss : List ℚ) (ls1 ls2 : List Pos)
    (rs : List ℚ) :
    (bouzidiVals f ss ls1 ls2 rs).length =
      min (min ss.length ls1.length) (min ls2.length rs.length) := by
  induction ss generalizing ls1 ls2 rs with
  | nil => simp [bouzidiVals]
  | cons sv ss ih =>
      cases ls1 with
      | nil => simp [bouzidiVals]
      | cons l1 ls1 =>
          cases ls2 with
          | nil => simp [bouzidiVals]
          | cons l2 ls2 =>
              cases rs with
              | nil => simp [bouzidiVals]
              | cons r rs =>
                  simp only [bouzidiVals, List.length_cons, ih]
                  omega

theorem bouzidiVals_getD (f : DF) (ss : List ℚ) (ls1 ls2 : List Pos)
    (rs : List ℚ) (j : Nat) (h1 : j < ss.length) (h2 : j < ls1.length)
    (h3 : j < ls2.length) (h4 : j < rs.length) (e : ℚ) :
    (bouzidiVals f ss ls1 ls2 rs).getD j e =
      ss.getD j 0 * f (ls1.getD j pd) + (1 - ss.getD j 0) * f (ls2.getD j pd)
        + rs.getD j 0 := by
  induction ss generalizing ls1 ls2 rs j with
  | nil => simp at h1
  | cons sv ss ih =>
      cases ls1 with
      | nil => simp at h2
      | cons l1 ls1 =>
          cases ls2 with
          | nil => simp at h3
          | cons l2 ls2 =>
              cases rs with
              | nil => simp at h4
              | cons r rs =>
                  cases j with
                  | zero => rfl
                  | succ j =>
                      simp only [bouzidiVals, List.getD_cons_succ]
                      exact ih ls1 ls2 rs j (Nat.lt_of_succ_lt_succ h1)
                        (Nat.lt_of_succ_lt_succ h2) (Nat.lt_of_succ_lt_succ h3)
                        (Nat.lt_of_succ_lt_succ h4)

theorem bouzidiAntiVals_getD (f : DF) (ss : List ℚ) (ls1 ls2 : List Pos)
    (rs : List ℚ) (j : Nat) (h1 : j < ss.length) (h2 : j < ls1.length)
    (h3 : j < ls2.length) (h4 : j < rs.length) (e : ℚ) :
    (bouzidiAntiVals f ss ls1 ls2 rs).getD j e =
      -(ss.getD j 0) * f (ls1.getD j pd) + (ss.getD j 0 - 1) * f (ls2.getD j pd)
        + rs.getD j 0 := by
  induction ss generalizing ls1 ls2 rs j with
  | nil => simp at h1
  | cons sv ss ih =>
      cases ls1 with
      | nil => simp at h2
      | cons l1 ls1 =>
          cases ls2 with
          | nil => simp at h3
          | cons l2 ls2 =>
              cases rs with
              | nil => simp at h4
              | cons r rs =>
                  cases j with
                  | zero => rfl
                  | succ j =>
                      simp only [bouzidiAntiVals, List.getD_cons_succ]
                      exact ih ls1 ls2 rs j (Nat.lt_of_succ_lt_succ h1)
                        (Nat.lt_of_succ_lt_succ h2) (Nat.lt_of_succ_lt_succ h3)
                        (Nat.lt_of_succ_lt_succ h4)

theorem scatter_zip_getD (l : List Pos) (vals : List ℚ) (f : DF) (j : Nat)
    (hnd : l.Nodup) (hj : j < l.length) (hlen : l.length ≤ vals.length) :
    scatter (l.zip vals) f (l.getD j pd) = vals.getD j 0 := by
  apply scatter_lookup
  · rw [List.map_fst_zip l vals hlen]
    exact hnd
  · exact getD_zip_mem l vals j hj (lt_of_lt_of_le hj hlen) pd 0

theorem prepare_one_feq_frame {F A : Type}
    (evalF : F → Option A → Nat → Nat → ℚ) (ilabel : List Int)
    (st : PrepState) (key : Int) (value : BCValue F A) (st1 : PrepState)
    (h : prepare_one evalF ilabel st (key, value) = .ok st1)
    (r c : Nat) (hc : ilabel[c]? ≠ some key) : st1.feq r c = st.feq r c := by
  cases value with
  | vnone =>
      simp only [prepare_one] at h
      cases h
      rfl
  | vfn g =>
      simp only [prepare_one] at h
      cases h
      simp [writeFeq, hc]
  | vtup l =>
      simp only [prepare_one] at h
      rcases hl1 : l[1]? with _ | e1
      · simp [hl1] at h
      · cases e1 with
        | func g1 => simp [hl1] at h
        | argpack a =>
            rcases hl0 : l[0]? with _ | e0
            · simp [hl1, hl0] at h
            · cases e0 with
              | argpack a0 => simp [hl1, hl0] at h
              | func g =>
                  simp only [hl1, hl0] at h
                  cases h
                  simp only [writeFeq, if_neg hc]
                  by_cases hl2 : l.length = 2 <;> simp [hl2]

theorem prepare_rhs_none_label {F A : Type}
    (evalF : F → Option A → Nat → Nat → ℚ) (ilabel : List Int) (L : Int)
    (entries : List (Int × BCValue F A)) (st st' : PrepState)
    (hv : ∀ e ∈ entries, e.1 = L → e.2 = BCValue.vnone)
    (hrun : prepare_rhs evalF ilabel entries st = .ok st')
    (r c : Nat) (hc : ilabel[c]? = some L) : st'.feq r c = st.feq r c := by
  induction entries generalizing st with
  | nil =>
      simp only [prepare_rhs] at hrun
      cases hrun
      rfl
  | cons e rest ih =>
      simp only [prepare_rhs] at hrun
      rcases hone : prepare_one evalF ilabel st e with e1 | st1
      · rw [hone] at hrun
        simp at hrun
      · rw [hone] at hrun
        have hrest : st'.feq r c = st1.feq r c :=
          ih st1 (fun x hx => hv x (List.mem_cons_of_mem e hx)) hrun
        rw [hrest]
        by_cases hkey : e.1 = L
        · have hval : e.2 = BCValue.vnone := hv e (List.mem_cons_self e rest) hkey
          have he : e = (e.1, BCValue.vnone) := by
            cases e
            simp only at hval
            rw [hval]
          rw [he] at hone
          simp only [prepare_one] at hone
          cases hone
          rfl
        · have he : e = (e.1, e.2) := rfl
          rw [he] at hone
          exact prepare_one_feq_frame evalF ilabel st e.1 e.2 st1 hone r c
            (fun hcc => hkey (by
              rw [hc] at hcc
              exact (Option.some.inj hcc).symm))

theorem bounce_back_update_getD (b : BMState) (hnd : b.istore.Nodup)
    (hload : b.iload = []) (f : DF) (j : Nat) (hj : j < b.istore.length) :
    bounce_back_update (bounce_back_set_rhs (bounce_back_set_iload b)) f
        (b.istore.getD j pd) =
      f (b.stencil.sym (b.istore.getD j pd).1,
          vadd (b.istore.getD j pd).2 (b.stencil.vel (b.istore.getD j pd).1))
        + (b.feq (b.istore.getD j pd).1 j
            - b.feq (b.stencil.sym (b.istore.getD j pd).1) j) := by
  simp only [bounce_back_update, bounce_back_set_rhs, bounce_back_set_iload,
    hload, List.nil_append, List.getD_cons_zero]
  rw [scatter_zip_getD _ _ f j hnd hj (by
    simp only [List.length_zipWith, List.length_map, List.length_range]
    omega)]
  rw [getD_zipWith_of_lt _ _ _ j
    (by simp only [List.length_map]; exact hj)
    (by simp only [List.length_map, List.length_range]; exact hj) 0 pd 0]
  rw [getD_map_of_lt _ _ j hj pd pd,
    getD_map_of_lt _ _ j (by simp only [List.length_range]; exact hj) 0 0,
    getD_range_of_lt _ j hj 0]

theorem anti_bounce_back_update_getD (b : BMState) (hnd : b.istore.Nodup)
    (hload : b.iload = []) (f : DF) (j : Nat) (hj : j < b.istore.length) :
    anti_bounce_back_update (anti_bounce_back_set_rhs (bounce_back_set_iload b)) f
        (b.istore.getD j pd) =
      -f (b.stencil.sym (b.istore.getD j pd).1,
          vadd (b.istore.getD j pd).2 (b.stencil.vel (b.istore.getD j pd).1))
        + (b.feq (b.istore.getD j pd).1 j
            + b.feq (b.stencil.sym (b.istore.getD j pd).1) j) := by
  simp only [anti_bounce_back_update, anti_bounce_back_set_rhs,
    bounce_back_set_iload, hload, List.nil_append, List.getD_cons_zero]
  rw [scatter_zip_getD _ _ f j hnd hj (by
    simp only [List.length_zipWith, List.length_map, List.length_range]
    omega)]
  rw [getD_zipWith_of_lt _ _ _ j
    (by simp only [List.length_map]; exact hj)
    (by simp only [List.length_map, List.length_range]; exact hj) 0 pd 0]
  rw [getD_map_of_lt _ _ j hj pd pd,
    getD_map_of_lt _ _ j (by simp only [List.length_range]; exact hj) 0 0,
    getD_range_of_lt _ j hj 0]

/-- C2: with load indices derived, `bounce_back.update` writes at every
destination column `j` (velocity `k`, symmetric `k*`) the value of `f` read
at `(k*, spatial index + v[k])` plus `feq[k] - feq[k*]`; `prepare_rhs` leaves
the equilibrium entries of a label with absent (`None`) prescribed value at
their initial zeros; and on such zero-equilibrium columns the update is pure
reflection: a loaded value of `3.0` is written back as `3.0`. -/
theorem C2_bounce_back_update_rule (b : BMState)
    (hnd : b.istore.Nodup) (hload : b.iload = []) :
    (∀ (f : DF) (j : Nat), j < b.istore.length →
      bounce_back_update (bounce_back_set_rhs (bounce_back_set_iload b)) f
          (b.istore.getD j pd) =
        f (b.stencil.sym (b.istore.getD j pd).1,
            vadd (b.istore.getD j pd).2 (b.stencil.vel (b.istore.getD j pd).1))
          + (b.feq (b.istore.getD j pd).1 j
              - b.feq (b.stencil.sym (b.istore.getD j pd).1) j)) ∧
    (∀ (F A : Type) (evalF : F → Option A → Nat → Nat → ℚ)
        (entries : List (Int × BCValue F A)) (L : Int) (st' : PrepState),
      (∀ e ∈ entries, e.1 = L → e.2 = BCValue.vnone) →
      prepare_rhs evalF b.ilabel entries { feq := fun _ _ => 0, errors := 0 }
          = .ok st' →
      ∀ (r c : Nat), b.ilabel[c]? = some L → st'.feq r c = 0) ∧
    (∀ (f : DF) (j : Nat), j < b.istore.length →
      b.feq = (fun _ _ => 0) →
      f (b.stencil.sym (b.istore.getD j pd).1,
          vadd (b.istore.getD j pd).2 (b.stencil.vel (b.istore.getD j pd).1))
        = 3 →
      bounce_back_update (bounce_back_set_rhs (bounce_back_set_iload b)) f
          (b.istore.getD j pd) = 3) := by
  refine ⟨bounce_back_update_getD b hnd hload, ?_, ?_⟩
  · intro F A evalF entries L st' hv hrun r c hc
    rw [prepare_rhs_none_label evalF b.ilabel L entries _ st' hv hrun r c hc]
  · intro f j hj hfeq hf3
    rw [bounce_back_update_getD b hnd hload f j hj, hf3, hfeq]
    norm_num

/-- C1: with load indices derived, every Bouzidi bounce-back column `j`
(velocity `k`, symmetric `k*`, distance `d`) gets, when `d < 0.5`, load set 1
`(k*, x + v[k])`, load set 2 `(k*, x + 2 v[k])` and `s = 2 d`, and otherwise
load set 1 `(k*, x + v[k])`, load set 2 `(k, x + v[k])` and `s = 0.5/d`; and
`update` writes `s*f[load1] + (1 - s)*f[load2] + (feq[k] - feq[k*])` at that
column. -/
theorem C1_Bouzidi_bounce_back_rule (b : BMState) (f : DF) (j : Nat)
    (hj : j < b.istore.length) (hnd : b.istore.Nodup) (hload : b.iload = [])
    (hlen : b.distance.length = b.istore.length) :
    ((b.distance.getD j 0 < 1/2 →
        ((Bouzidi_set_iload b).iload.getD 0 []).getD j pd =
          (b.stencil.sym (b.istore.getD j pd).1,
            vadd (b.istore.getD j pd).2 (b.stencil.vel (b.istore.getD j pd).1)) ∧
        ((Bouzidi_set_iload b).iload.getD 1 []).getD j pd =
          (b.stencil.sym (b.istore.getD j pd).1,
            vadd2 (b.istore.getD j pd).2 (b.stencil.vel (b.istore.getD j pd).1)) ∧
        (Bouzidi_set_iload b).s.getD j 0 = 2 * b.distance.getD j 0) ∧
     (¬ b.distance.getD j 0 < 1/2 →
        ((Bouzidi_set_iload b).iload.getD 0 []).getD j pd =
          (b.stencil.sym (b.istore.getD j pd).1,
            vadd (b.istore.getD j pd).2 (b.stencil.vel (b.istore.getD j pd).1)) ∧
        ((Bouzidi_set_iload b).iload.getD 1 []).getD j pd =
          ((b.istore.getD j pd).1,
            vadd (b.istore.getD j pd).2 (b.stencil.vel (b.istore.getD j pd).1)) ∧
        (Bouzidi_set_iload b).s.getD j 0 = 1/2 / b.distance.getD j 0)) ∧
    Bouzidi_update (Bouzidi_set_rhs (Bouzidi_set_iload b)) f
        (b.istore.getD j pd) =
      (Bouzidi_set_iload b).s.getD j 0
          * f (((Bouzidi_set_iload b).iload.getD 0 []).getD j pd)
        + (1 - (Bouzidi_set_iload b).s.getD j 0)
          * f (((Bouzidi_set_iload b).iload.getD 1 []).getD j pd)
        + (b.feq (b.istore.getD j pd).1 j
            - b.feq (b.stencil.sym (b.istore.getD j pd).1) j) := by
  have hjd : j < b.distance.length := by rw [hlen]; exact hj
  have hcl : (List.zipWith (fun d c => bouzidi_col b.stencil d c)
      b.distance b.istore).length = b.istore.length := by
    simp only [List.length_zipWith, hlen, min_self]
  have hjc : j < (List.zipWith (fun d c => bouzidi_col b.stencil d c)
      b.distance b.istore).length := by rw [hcl]; exact hj
  have hcols : (List.zipWith (fun d c => bouzidi_col b.stencil d c)
      b.distance b.istore).getD j (pd, pd, 0) =
      bouzidi_col b.stencil (b.distance.getD j 0) (b.istore.getD j pd) :=
    getD_zipWith_of_lt _ _ _ j hjd hj (pd, pd, 0) 0 pd
  have hl1 : ((Bouzidi_set_iload b).iload.getD 0 []).getD j pd =
      (bouzidi_col b.stencil (b.distance.getD j 0) (b.istore.getD j pd)).1 := by
    simp only [Bouzidi_set_iload, hload, List.nil_append, List.getD_cons_zero]
    rw [getD_map_of_lt _ _ j hjc pd (pd, pd, 0), hcols]
  have hl2 : ((Bouzidi_set_iload b).iload.getD 1 []).getD j pd =
      (bouzidi_col b.stencil (b.distance.getD j 0) (b.istore.getD j pd)).2.1 := by
    simp only [Bouzidi_set_iload, hload, List.nil_append, List.getD_cons_succ,
      List.getD_cons_zero]
    rw [getD_map_of_lt _ _ j hjc pd (pd, pd, 0), hcols]
  have hs : (Bouzidi_set_iload b).s.getD j 0 =
      (bouzidi_col b.stencil (b.distance.getD j 0) (b.istore.getD j pd)).2.2 := by
    simp only [Bouzidi_set_iload]
    rw [getD_map_of_lt _ _ j hjc 0 (pd, pd, 0), hcols]
  refine ⟨⟨?_, ?_⟩, ?_⟩
  · intro hd
    rw [hl1, hl2, hs]
    simp only [bouzidi_col, if_pos hd, and_self]
  · intro hd
    rw [hl1, hl2, hs]
    simp only [bouzidi_col, if_neg hd, and_self]
  · rw [hl1, hl2, hs]
    simp only [Bouzidi_update, Bouzidi_set_rhs, Bouzidi_set_iload, hload,
      List.nil_append, List.getD_cons_zero, List.getD_cons_succ]
    rw [scatter_zip_getD _ _ f j hnd hj (by
      rw [bouzidiVals_length]
      simp only [List.length_map, List.length_range, hcl]
      omega)]
    rw [bouzidiVals_getD f _ _ _ _ j
      (by simp only [List.length_map, hcl]; exact hj)
      (by simp only [List.length_map, hcl]; exact hj)
      (by simp only [List.length_map, hcl]; exact hj)
      (by simp only [List.length_map, List.length_range]; exact hj) 0]
    rw [getD_map_of_lt _ _ j hjc 0 (pd, pd, 0), hcols,
      getD_map_of_lt _ _ j hjc pd (pd, pd, 0), hcols,
      getD_map_of_lt (fun t => t.2.1) _ j hjc pd (pd, pd, 0), hcols,
      getD_map_of_lt _ _ j (by simp only [List.length_range]; exact hj) 0 0,
      getD_range_of_lt _ j hj 0]

/-- C3: with load indices derived (inherited from `bounce_back`),
`anti_bounce_back.update` writes at every destination column `j` the value
`-f[load](k*) + feq[k] + feq[k*]`; and on a column with `feq[k] = 2.0`,
`feq[k*] = 1.0` and loaded value `0.0`, bounce-back writes `1.0` while
anti-bounce-back writes `3.0`. -/
theorem C3_anti_bounce_back_rule (b : BMState)
    (hnd : b.istore.Nodup) (hload : b.iload = []) :
    (∀ (f : DF) (j : Nat), j < b.istore.length →
      anti_bounce_back_update (anti_bounce_back_set_rhs (bounce_back_set_iload b))
          f (b.istore.getD j pd) =
        -f (b.stencil.sym (b.istore.getD j pd).1,
            vadd (b.istore.getD j pd).2 (b.stencil.vel (b.istore.getD j pd).1))
          + (b.feq (b.istore.getD j pd).1 j
              + b.feq (b.stencil.sym (b.istore.getD j pd).1) j)) ∧
    (∀ (f : DF) (j : Nat), j < b.istore.length →
      b.feq (b.istore.getD j pd).1 j = 2 →
      b.feq (b.stencil.sym (b.istore.getD j pd).1) j = 1 →
      f (b.stencil.sym (b.istore.getD j pd).1,
          vadd (b.istore.getD j pd).2 (b.stencil.vel (b.istore.getD j pd).1)) = 0 →
      bounce_back_update (bounce_back_set_rhs (bounce_back_set_iload b)) f
          (b.istore.getD j pd) = 1 ∧
      anti_bounce_back_update (anti_bounce_back_set_rhs (bounce_back_set_iload b))
          f (b.istore.getD j pd) = 3) := by
  refine ⟨anti_bounce_back_update_getD b hnd hload, ?_⟩
  intro f j hj h2 h1 h0
  constructor
  · rw [bounce_back_update_getD b hnd hload f j hj, h2, h1, h0]
    norm_num
  · rw [anti_bounce_back_update_getD b hnd hload f j hj, h2, h1, h0]
    norm_num

/-- A 3-D stencil whose velocity 0 is the pure z direction `(0, 0, 1)`. -/
def stC4 : Stencil :=
  { sym := fun k => k, vel := fun _ => [0, 0, 1], num := fun _ => [],
    nv_ptr := fun _ => 0, unum2index := fun u => u }

/-- A `Neumann_z` instance with the single destination column
`(k = 0, x = (10, 20, 30))`. -/
def bC4 : BMState := BMinit [(0, [10, 20, 30])] [0] [0] stC4

/-- C4: evaluation of the source's `Neumann_z.set_iload` on a column with
`v[k] = (0, 0, 1)` and destination `(10, 20, 30)`.  The source
(`indices[1] += v[k].T[2]`) produces the load spatial index `(10, 21, 30)`
— the y axis offset by the z component — while the spec's description
(only the z axis offset by the z component) requires `(10, 20, 31)`; the two
load tables differ. -/
theorem C4_neumann_z_axis_bug :
    (Neumann_z_set_iload bC4).iload = [[(0, [10, 21, 30])]] ∧
    (Neumann_z_set_iload_spec bC4).iload = [[(0, [10, 20, 31])]] ∧
    (Neumann_z_set_iload bC4).iload ≠ (Neumann_z_set_iload_spec bC4).iload := by
  refine ⟨by decide, by decide, by decide⟩

theorem mem_map_fst_zip_left {α β : Type} {l : List α} {v : List β} {p : α}
    (hp : p ∈ (l.zip v).map Prod.fst) : p ∈ l := by
  rcases List.mem_map.1 hp with ⟨w, hw, hfw⟩
  cases w with
  | mk w1 w2 =>
      cases hfw
      exact (List.of_mem_zip hw).1

/-- C7: every variant's `update` writes only positions listed in its own
destination table `istore`; any other entry of `f` is returned unchanged
(the instance's tables are read-only inputs of `update` in this embedding,
mirroring that the source's `update` methods never assign to `self`). -/
theorem C7_update_frame :
    (∀ (b : BMState) (f : DF) (p : Pos), p ∉ b.istore →
        bounce_back_update b f p = f p) ∧
    (∀ (b : BMState) (f : DF) (p : Pos), p ∉ b.istore →
        Bouzidi_update b f p = f p) ∧
    (∀ (b : BMState) (f : DF) (p : Pos), p ∉ b.istore →
        anti_bounce_back_update b f p = f p) ∧
    (∀ (b : BMState) (f : DF) (p : Pos), p ∉ b.istore →
        Bouzidi_anti_update b f p = f p) ∧
    (∀ (b : BMState) (f : DF) (p : Pos), p ∉ b.istore →
        Neumann_update b f p = f p) := by
  refine ⟨?_, ?_, ?_, ?_, ?_⟩ <;>
    · intro b f p hp
      exact scatter_frame _ f p (fun hm => hp (mem_map_fst_zip_left hm))

/-- C9: calling a variant's `set_iload` twice on an instance whose `iload`
list is empty (as `Boundary_method.__init__` leaves it) appends the same
tables again, so the load tables `update` reads (`iload[0]`, and `iload[1]`
for the Bouzidi variants) after the second call equal those after a single
call. -/
theorem C9_set_iload_idempotent (b : BMState) (hload : b.iload = []) :
    (bounce_back_set_iload (bounce_back_set_iload b)).iload.getD 0 [] =
      (bounce_back_set_iload b).iload.getD 0 [] ∧
    ((Bouzidi_set_iload (Bouzidi_set_iload b)).iload.getD 0 [] =
      (Bouzidi_set_iload b).iload.getD 0 [] ∧
     (Bouzidi_set_iload (Bouzidi_set_iload b)).iload.getD 1 [] =
      (Bouzidi_set_iload b).iload.getD 1 []) ∧
    (Neumann_set_iload (Neumann_set_iload b)).iload.getD 0 [] =
      (Neumann_set_iload b).iload.getD 0 [] ∧
    (Neumann_x_set_iload (Neumann_x_set_iload b)).iload.getD 0 [] =
      (Neumann_x_set_iload b).iload.getD 0 [] ∧
    (Neumann_y_set_iload (Neumann_y_set_iload b)).iload.getD 0 [] =
      (Neumann_y_set_iload b).iload.getD 0 [] ∧
    (Neumann_z_set_iload (Neumann_z_set_iload b)).iload.getD 0 [] =
      (Neumann_z_set_iload b).iload.getD 0 [] := by
  refine ⟨?_, ⟨?_, ?_⟩, ?_, ?_, ?_, ?_⟩ <;>
    simp [bounce_back_set_iload, Bouzidi_set_iload, Neumann_set_iload,
      Neumann_x_set_iload, Neumann_y_set_iload, Neumann_z_set_iload, hload]

/-- C8: continuity of the Bouzidi interpolation at distance `0.5`: the lower
branch weight `s = 2 d` and the upper branch weight `s = 0.5/d` both tend to
`1` as `d` approaches `1/2` from below resp. above, and for fixed field
values `a = f[load1]`, `b = f[load2]` and forcing `r`, both branch update
formulas tend to the same value `a + r`. -/
theorem C8_bouzidi_continuity_at_half (a b r : ℝ) :
    Filter.Tendsto bouzidi_s_low
      (nhdsWithin (1/2 : ℝ) (Set.Iio (1/2 : ℝ))) (nhds 1) ∧
    Filter.Tendsto bouzidi_s_high
      (nhdsWithin (1/2 : ℝ) (Set.Ioi (1/2 : ℝ))) (nhds 1) ∧
    Filter.Tendsto (fun d => bouzidiValue (bouzidi_s_low d) a b r)
      (nhdsWithin (1/2 : ℝ) (Set.Iio (1/2 : ℝ))) (nhds (a + r)) ∧
    Filter.Tendsto (fun d => bouzidiValue (bouzidi_s_high d) a b r)
      (nhdsWithin (1/2 : ℝ) (Set.Ioi (1/2 : ℝ))) (nhds (a + r)) := by
  have hs_low : Filter.Tendsto bouzidi_s_low (nhds (1/2 : ℝ)) (nhds 1) := by
    have hc : Continuous bouzidi_s_low := by
      unfold bouzidi_s_low
      exact continuous_const.mul continuous_id
    have hval : bouzidi_s_low (1/2 : ℝ) = 1 := by
      unfold bouzidi_s_low
      norm_num
    have ht := hc.tendsto (1/2 : ℝ)
    rw [hval] at ht
    exact ht
  have hs_high : Filter.Tendsto bouzidi_s_high (nhds (1/2 : ℝ)) (nhds 1) := by
    have hc : ContinuousAt bouzidi_s_high (1/2 : ℝ) := by
      unfold bouzidi_s_high
      exact ContinuousAt.div continuousAt_const continuousAt_id (by norm_num)
    have hval : bouzidi_s_high (1/2 : ℝ) = 1 := by
      unfold bouzidi_s_high
      norm_num
    have ht := hc.tendsto
    rw [hval] at ht
    exact ht
  have hvc : Continuous (fun s : ℝ => bouzidiValue s a b r) := by
    unfold bouzidiValue
    fun_prop
  have hvval : bouzidiValue 1 a b r = a + r := by
    unfold bouzidiValue
    ring
  have hlow : Filter.Tendsto bouzidi_s_low
      (nhdsWithin (1/2 : ℝ) (Set.Iio (1/2 : ℝ))) (nhds 1) :=
    hs_low.mono_left nhdsWithin_le_nhds
  have hhigh : Filter.Tendsto bouzidi_s_high
      (nhdsWithin (1/2 : ℝ) (Set.Ioi (1/2 : ℝ))) (nhds 1) :=
    hs_high.mono_left nhdsWithin_le_nhds
  refine ⟨hlow, hhigh, ?_, ?_⟩
  · have hcomp := (hvc.tendsto 1).comp hlow
    rw [hvval] at hcomp
    exact hcomp
  · have hcomp := (hvc.tendsto 1).comp hhigh
    rw [hvval] at hcomp
    exact hcomp

/-- C5 (amended): when a label's prescribed value is a tuple whose length is
not 2, `prepare_rhs` logs a configuration error but still attempts the tuple
application rather than skipping it: with fewer than two elements the access
`value[1]` raises an uncaught `IndexError`; with a callable first element
and an arguments-pack second element (plus extras), it proceeds,
incrementing the error log and overwriting exactly that label's equilibrium
columns (columns of other labels are untouched by the entry); and an error
raised on the entry aborts the whole `prepare_rhs` run. -/
theorem C5_wrong_arity_tuple {F A : Type}
    (evalF : F → Option A → Nat → Nat → ℚ) (ilabel : List Int)
    (st : PrepState) (key : Int) (l : List (PyObj F A))
    (hlen : l.length ≠ 2) :
    (l.length < 2 →
      prepare_one evalF ilabel st (key, .vtup l) = .error .indexError) ∧
    (∀ (g : F) (a : A) (rest : List (PyObj F A)),
      l = .func g :: .argpack a :: rest →
      prepare_one evalF ilabel st (key, .vtup l) =
        .ok (writeFeq ilabel key (evalF g (some a))
              { st with errors := st.errors + 1 }) ∧
      ∀ (r c : Nat), ilabel[c]? ≠ some key →
        (writeFeq ilabel key (evalF g (some a))
            { st with errors := st.errors + 1 }).feq r c = st.feq r c) ∧
    (∀ (entries : List (Int × BCValue F A)) (err : PyErr),
      prepare_one evalF ilabel st (key, .vtup l) = .error err →
      prepare_rhs evalF ilabel ((key, .vtup l) :: entries) st = .error err) := by
  refine ⟨?_, ?_, ?_⟩
  · intro hlt
    have hget : l[1]? = none := List.getElem?_eq_none (by omega)
    simp [prepare_one, hget]
  · intro g a rest hl
    subst hl
    constructor
    · have hlen2 : rest.length + 1 + 1 ≠ 2 := by simpa using hlen
      simp [prepare_one, hlen2]
    · intro r c hc
      simp [writeFeq, hc]
  · intro entries err herr
    simp only [prepare_rhs]
    rw [herr]

/-- The configuration used against C5 as stated: label 0 carries the
wrong-arity 1-tuple `(f,)` and label 1 a plain function value. -/
def c5entries : List (Int × BCValue Unit Unit) :=
  [(0, .vtup [.func ()]), (1, .vfn ())]

/-- A fixed abstract evaluator for the external equilibrium chain. -/
def c5evalF : Unit → Option Unit → Nat → Nat → ℚ := fun _ _ _ _ => 7

/-- C5 (counterexample): running `prepare_rhs` on `c5entries` (column labels
`0` then `1`) does not log-and-continue: the wrong-arity tuple of label 0
raises an uncaught `IndexError` which aborts the run, so no success state
exists and label 1's columns are never written — contradicting the claim
that the run continues with that label's columns left zero and the other
labels' columns intact. -/
theorem C5_counterexample_aborts :
    prepare_rhs c5evalF [0, 1] c5entries { feq := fun _ _ => 0, errors := 0 }
      = .error .indexError ∧
    feqAt 0 1 (prepare_rhs c5evalF [0, 1] c5entries
      { feq := fun _ _ => 0, errors := 0 }) = none :=
  ⟨rfl, rfl⟩

/-- Witness instantiating the amended C5 statement: the 1-tuple raises
`IndexError` on a concrete run. -/
theorem C5_wrong_arity_tuple_witness :
    prepare_one c5evalF [0, 1] { feq := fun _ _ => 0, errors := 0 }
      (0, .vtup [PyObj.func ()]) = .error .indexError :=
  (C5_wrong_arity_tuple c5evalF [0, 1] { feq := fun _ _ => 0, errors := 0 }
    0 [PyObj.func ()] (by decide)).1 (by decide)

/-! ## Characterization of the compiler's grouping and column order -/

/-- First-match lookup of a method's accumulated table (`istore[v]` access);
`emptyTable` when the method has no entry. -/
def lookupTable : BCMethod → List (BCMethod × MethodTable) → MethodTable
  | _, [] => emptyTable
  | m, (k, t) :: rest => if k = m then t else lookupTable m rest

/-- Horizontal concatenation of a list of tables, in order. -/
def concatTables : List MethodTable → MethodTable
  | [] => emptyTable
  | t :: rest => tableAppend t (concatTables rest)

/-- The `(method, chunk)` contributions of the innermost velocity loop, in
traversal order, keeping only non-empty locator records. -/
def famChunks (D : DomainData) (st : Stencil) (label : Int) (fam : Nat)
    (mk : BCMethod) (ps : List (Nat × Nat)) : List (BCMethod × MethodTable) :=
  ps.filterMap (fun p =>
    if D.bvIndices label (st.unum2index p.2) = [] then none
    else some (mk, velChunk D st label fam p.1 p.2))

/-- The contributions of one label, over its `methods.items()` in order. -/
def labelChunks (D : DomainData) (st : Stencil) (label : Int)
    (methods : List (Nat × BCMethod)) : List (BCMethod × MethodTable) :=
  (methods.map (fun fm => famChunks D st label fm.1 fm.2 ((st.num fm.1).enum))).join

/-- All contributions of a label traversal, skipping the reserved labels
`-1` and `-2`, in first-encountered order. -/
def flatChunksOver {V : Type} (D : DomainData) (st : Stencil)
    (dico : List (Int × LabelConf V)) (labels : List Int) :
    List (BCMethod × MethodTable) :=
  ((labels.filter (fun l => decide (l ≠ -1 ∧ l ≠ -2))).map
    (fun l => labelChunks D st l ((methodOf dico l).getD []))).join

theorem tableAppend_empty_left (t : MethodTable) :
    tableAppend emptyTable t = t := by
  cases t
  rfl

theorem tableAppend_empty_right (t : MethodTable) :
    tableAppend t emptyTable = t := by
  cases t
  simp [tableAppend, emptyTable]

theorem tableAppend_assoc (t u v : MethodTable) :
    tableAppend (tableAppend t u) v = tableAppend t (tableAppend u v) := by
  simp [tableAppend, List.append_assoc]

theorem concatTables_append (L1 L2 : List MethodTable) :
    concatTables (L1 ++ L2) = tableAppend (concatTables L1) (concatTables L2) := by
  induction L1 with
  | nil => simp [concatTables, tableAppend_empty_left]
  | cons t rest ih => simp [concatTables, ih, tableAppend_assoc]

theorem lookupTable_insertAppend (m : BCMethod)
    (acc : List (BCMethod × MethodTable)) (e : BCMethod × MethodTable) :
    lookupTable m (insertAppend acc e) =
      if e.1 = m then tableAppend (lookupTable m acc) e.2
      else lookupTable m acc := by
  obtain ⟨k, t⟩ := e
  induction acc with
  | nil =>
      by_cases hk : k = m
      · simp [insertAppend, lookupTable, hk, tableAppend_empty_left]
      · simp [insertAppend, lookupTable, hk]
  | cons p rest ih =>
      obtain ⟨k2, t2⟩ := p
      simp only [insertAppend]
      by_cases hk2 : k2 = k
      · subst hk2
        simp only [if_pos rfl]
        by_cases hm : k2 = m
        · simp [lookupTable, hm]
        · simp [lookupTable, hm]
      · rw [if_neg hk2]
        by_cases hm : k2 = m
        · have hkm : k ≠ m := fun h => hk2 (h ▸ hm)
          simp [lookupTable, hm, hkm]
        · simp [lookupTable, hm, ih]

theorem lookupTable_groupFold (m : BCMethod) (L : List (BCMethod × MethodTable))
    (acc : List (BCMethod × MethodTable)) :
    lookupTable m (L.foldl insertAppend acc) =
      tableAppend (lookupTable m acc)
        (concatTables (((L.filter (fun e => decide (e.1 = m)))).map Prod.snd)) := by
  induction L generalizing acc with
  | nil => simp [concatTables, tableAppend_empty_right]
  | cons e rest ih =>
      simp only [List.foldl_cons]
      rw [ih (insertAppend acc e), lookupTable_insertAppend]
      by_cases hm : e.1 = m
      · simp [hm, List.filter_cons, concatTables, tableAppend_assoc]
      · simp [hm, List.filter_cons]

theorem foldl_step_filterMap {α : Type}
    (h : α → Option (BCMethod × MethodTable)) (ps : List α)
    (acc : List (BCMethod × MethodTable)) :
    ps.foldl (fun a p =>
      match h p with
      | none => a
      | some e => insertAppend a e) acc =
      (ps.filterMap h).foldl insertAppend acc := by
  induction ps generalizing acc with
  | nil => rfl
  | cons p rest ih =>
      simp only [List.foldl_cons, List.filterMap_cons]
      cases hp : h p with
      | none => simp [hp, ih]
      | some e => simp [hp, ih]

theorem compileFam_eq (D : DomainData) (st : Stencil) (label : Int) (fam : Nat)
    (mk : BCMethod) (ps : List (Nat × Nat))
    (acc : List (BCMethod × MethodTable)) :
    compileFam D st label fam mk ps acc =
      (famChunks D st label fam mk ps).foldl insertAppend acc := by
  rw [compileFam, famChunks, ← foldl_step_filterMap]
  congr 1
  funext a p
  by_cases hemp : D.bvIndices label (st.unum2index p.2) = [] <;> simp [hemp]

theorem compileLabel_eq (D : DomainData) (st : Stencil) (label : Int)
    (methods : List (Nat × BCMethod)) (acc : List (BCMethod × MethodTable)) :
    compileLabel D st label methods acc =
      (labelChunks D st label methods).foldl insertAppend acc := by
  induction methods generalizing acc with
  | nil => rfl
  | cons fm rest ih =>
      have h1 : compileLabel D st label (fm :: rest) acc =
          compileLabel D st label rest
            (compileFam D st label fm.1 fm.2 ((st.num fm.1).enum) acc) := rfl
      rw [h1, ih, compileFam_eq]
      simp only [labelChunks, List.map_cons, List.join_cons, List.foldl_append]

theorem flatChunksOver_cons_skip {V : Type} (D : DomainData) (st : Stencil)
    (dico : List (Int × LabelConf V)) (l : Int) (rest : List Int)
    (h : l = -1 ∨ l = -2) :
    flatChunksOver D st dico (l :: rest) = flatChunksOver D st dico rest := by
  rcases h with h | h <;> subst h <;>
    simp [flatChunksOver, List.filter_cons]

theorem flatChunksOver_cons_keep {V : Type} (D : DomainData) (st : Stencil)
    (dico : List (Int × LabelConf V)) (l : Int) (rest : List Int)
    (h1 : l ≠ -1) (h2 : l ≠ -2) :
    flatChunksOver D st dico (l :: rest) =
      labelChunks D st l ((methodOf dico l).getD [])
        ++ flatChunksOver D st dico rest := by
  simp [flatChunksOver, List.filter_cons, h1, h2]

theorem compileGo_ok_characterization {V : Type} (D : DomainData)
    (st : Stencil) (dico : List (Int × LabelConf V)) (labels : List Int)
    (acc : List (BCMethod × MethodTable))
    (hok : ∀ l ∈ labels, l ≠ -1 → l ≠ -2 → (methodOf dico l).isSome) :
    ∃ ts, compileGo D st dico labels acc = .ok ts ∧
      ∀ m, lookupTable m ts =
        tableAppend (lookupTable m acc)
          (concatTables (((flatChunksOver D st dico labels).filter
            (fun e => decide (e.1 = m))).map Prod.snd)) := by
  induction labels generalizing acc with
  | nil =>
      refine ⟨acc, rfl, fun m => ?_⟩
      simp [flatChunksOver, concatTables, tableAppend_empty_right]
  | cons label rest ih =>
      by_cases h1 : label = -1
      · obtain ⟨ts, hts, hchar⟩ :=
          ih acc (fun l hl => hok l (List.mem_cons_of_mem _ hl))
        refine ⟨ts, ?_, fun m => ?_⟩
        · simp only [compileGo, if_pos h1]
          exact hts
        · rw [hchar m, flatChunksOver_cons_skip D st dico label rest (Or.inl h1)]
      · by_cases h2 : label = -2
        · obtain ⟨ts, hts, hchar⟩ :=
            ih acc (fun l hl => hok l (List.mem_cons_of_mem _ hl))
          refine ⟨ts, ?_, fun m => ?_⟩
          · simp only [compileGo, if_neg h1, if_pos h2]
            exact hts
          · rw [hchar m, flatChunksOver_cons_skip D st dico label rest (Or.inr h2)]
        · have hsome := hok label (List.mem_cons_self label rest) h1 h2
          rcases hA : assocFind dico label with _ | conf
          · rw [methodOf, hA] at hsome
            simp at hsome
          · rcases hM : conf.method with _ | ms
            · rw [methodOf, hA] at hsome
              simp [hM] at hsome
            · have hmo : methodOf dico label = some ms := by
                rw [methodOf, hA]
                simp [hM]
              obtain ⟨ts, hts, hchar⟩ :=
                ih (compileLabel D st label ms acc)
                  (fun l hl => hok l (List.mem_cons_of_mem _ hl))
              refine ⟨ts, ?_, fun m => ?_⟩
              · simp only [compileGo, if_neg h1, if_neg h2, hA, hM]
                exact hts
              · rw [hchar m, compileLabel_eq, lookupTable_groupFold,
                  flatChunksOver_cons_keep D st dico label rest h1 h2, hmo]
                simp only [Option.getD_some, List.filter_append, List.map_append,
                  concatTables_append, tableAppend_assoc]

/-- C6: the table-building pass of `Boundary.__init__` is deterministic —
two runs on the same inputs are equal — and for every method type the
accumulated `istore`/`ilabel`/`distance` table is exactly the concatenation,
in first-encountered order of the label / velocity-family / velocity
traversal, of that method's per-(label, velocity) chunks. -/
theorem C6_boundary_compile_deterministic_order {V : Type} (D : DomainData)
    (st : Stencil) (dico : List (Int × LabelConf V))
    (hok : ∀ l ∈ D.labels, l ≠ -1 → l ≠ -2 → (methodOf dico l).isSome) :
    boundaryCompile D st dico = boundaryCompile D st dico ∧
    ∃ ts, boundaryCompile D st dico = .ok ts ∧
      ∀ m, lookupTable m ts =
        concatTables (((flatChunksOver D st dico D.labels).filter
          (fun e => decide (e.1 = m))).map Prod.snd) := by
  refine ⟨rfl, ?_⟩
  obtain ⟨ts, hts, hchar⟩ :=
    compileGo_ok_characterization D st dico D.labels [] hok
  refine ⟨ts, hts, fun m => ?_⟩
  rw [hchar m]
  simp [lookupTable, tableAppend_empty_left]

/-- C10: reserved labels `-1` and `-2` are always skipped (filtering them
from the label list does not change the compiler's outcome, so they
contribute no columns and no method instance), while any non-reserved label
whose configuration entry is missing, or lacks a `method` key, makes
`Boundary.__init__` fail with a lookup error rather than skip the label. -/
theorem C10_missing_config_raises {V : Type} (D : DomainData) (st : Stencil)
    (dico : List (Int × LabelConf V)) :
    (∀ (labels : List Int) (acc : List (BCMethod × MethodTable)),
      compileGo D st dico
          (labels.filter (fun l => decide (l ≠ -1 ∧ l ≠ -2))) acc =
        compileGo D st dico labels acc) ∧
    (∀ (labels : List Int) (acc : List (BCMethod × MethodTable)),
      (∃ l ∈ labels, l ≠ -1 ∧ l ≠ -2 ∧ methodOf dico l = none) →
      ∃ e, compileGo D st dico labels acc = .error e) := by
  constructor
  · intro labels
    induction labels with
    | nil => intro acc; rfl
    | cons l rest ih =>
        intro acc
        by_cases h1 : l = -1
        · have hd : decide (l ≠ -1 ∧ l ≠ -2) = false := by
            subst h1; decide
          simp only [List.filter_cons, hd, Bool.false_eq_true, if_false,
            compileGo, if_pos h1]
          exact ih acc
        · by_cases h2 : l = -2
          · have hd : decide (l ≠ -1 ∧ l ≠ -2) = false := by
              subst h2; decide
            simp only [List.filter_cons, hd, Bool.false_eq_true, if_false,
              compileGo, if_neg h1, if_pos h2]
            exact ih acc
          · have hd : decide (l ≠ -1 ∧ l ≠ -2) = true := by simp [h1, h2]
            simp only [List.filter_cons, hd, if_true, compileGo,
              if_neg h1, if_neg h2]
            rcases hA : assocFind dico l with _ | conf
            · rfl
            · rcases hM : conf.method with _ | ms
              · simp [hM]
              · simp only [hM]
                exact ih (compileLabel D st l ms acc)
  · intro labels
    induction labels with
    | nil =>
        intro acc hex
        rcases hex with ⟨l, hl, _⟩
        simp at hl
    | cons l rest ih =>
        intro acc hex
        rcases hex with ⟨l0, hl0, hne1, hne2, hnone⟩
        rcases List.mem_cons.1 hl0 with heq | hmem
        · subst heq
          simp only [compileGo, if_neg hne1, if_neg hne2]
          rcases hA : assocFind dico l0 with _ | conf
          · exact ⟨BErr.labelKeyError l0, rfl⟩
          · rcases hM : conf.method with _ | ms
            · refine ⟨BErr.methodKeyError l0, ?_⟩
              simp [hM]
            · exfalso
              rw [methodOf, hA] at hnone
              simp [hM] at hnone
        · by_cases h1 : l = -1
          · simp only [compileGo, if_pos h1]
            exact ih acc ⟨l0, hmem, hne1, hne2, hnone⟩
          · by_cases h2 : l = -2
            · simp only [compileGo, if_neg h1, if_pos h2]
              exact ih acc ⟨l0, hmem, hne1, hne2, hnone⟩
            · simp only [compileGo, if_neg h1, if_neg h2]
              rcases hA : assocFind dico l with _ | conf
              · exact ⟨BErr.labelKeyError l, rfl⟩
              · rcases hM : conf.method with _ | ms
                · refine ⟨BErr.methodKeyError l, ?_⟩
                  simp [hM]
                · simp only [hM]
                  exact ih (compileLabel D st l ms acc)
                    ⟨l0, hmem, hne1, hne2, hnone⟩

/-! ## Concrete instances for the witnesses -/

/-- A one-dimensional two-velocity stencil: velocities `+1` and `-1`,
symmetric to each other. -/
def stW : Stencil :=
  { sym := fun k => if k = 0 then 1 else 0,
    vel := fun k => if k = 0 then [1] else [-1],
    num := fun fam => if fam = 0 then [1, 2] else [],
    nv_ptr := fun fam => fam,
    unum2index := fun u => u - 1 }

/-- An example method instance with two destination columns. -/
def bW : BMState := BMinit [(0, [5]), (1, [0])] [0, 0] [1/4, 3/4] stW

/-- A field holding `3` at the loaded position `(1, 6)` of `bW`'s column 0. -/
def fW3 : DF := fun p => if p = (1, [6]) then 3 else 0

/-- A constant field. -/
def fW1 : DF := fun _ => 2

/-- The all-zero field. -/
def fW0 : DF := fun _ => 0

/-- A single-column instance with `feq[k] = 2` and `feq[k*] = 1` at its
column. -/
def bW3 : BMState :=
  { istore := [(0, [5])], ilabel := [0], distance := [1/4], stencil := stW,
    feq := fun r _ => if r = 0 then 2 else if r = 1 then 1 else 0,
    rhs := [0], iload := [], s := [0] }

/-- Example domain data: label `0` has one boundary node for unique-velocity
index `0`, label `-1` is reserved. -/
def dW : DomainData :=
  { labels := [0, -1],
    bvIndices := fun label u => if label = 0 ∧ u = 0 then [[7]] else [],
    bvDistance := fun label u => if label = 0 ∧ u = 0 then [1/4] else [] }

/-- Example configuration: label `0` uses bounce-back for family `0`. -/
def dicoW : List (Int × LabelConf Unit) :=
  [(0, { value := none, method := some [(0, BCMethod.bounceBack)] })]

/-- Witness for C1 at column 0 of `bW` (distance `1/4 < 1/2`). -/
theorem C1_Bouzidi_bounce_back_rule_witness :
    ((Bouzidi_set_iload bW).iload.getD 0 []).getD 0 pd =
      (bW.stencil.sym (bW.istore.getD 0 pd).1,
        vadd (bW.istore.getD 0 pd).2 (bW.stencil.vel (bW.istore.getD 0 pd).1)) ∧
    ((Bouzidi_set_iload bW).iload.getD 1 []).getD 0 pd =
      (bW.stencil.sym (bW.istore.getD 0 pd).1,
        vadd2 (bW.istore.getD 0 pd).2 (bW.stencil.vel (bW.istore.getD 0 pd).1)) ∧
    (Bouzidi_set_iload bW).s.getD 0 0 = 2 * bW.distance.getD 0 0 :=
  ((C1_Bouzidi_bounce_back_rule bW fW1 0 (by decide) (by decide) rfl rfl).1).1
    (by norm_num [bW, BMinit])

/-- Witness for C2: pure reflection of the loaded value `3` at column 0 of
`bW` (all equilibrium entries zero). -/
theorem C2_bounce_back_update_rule_witness :
    bounce_back_update (bounce_back_set_rhs (bounce_back_set_iload bW)) fW3
      (bW.istore.getD 0 pd) = 3 :=
  (C2_bounce_back_update_rule bW (by decide) rfl).2.2 fW3 0 (by decide) rfl
    (by decide)

/-- Witness for C3: at `bW3`'s column (`feq[k] = 2`, `feq[k*] = 1`, loaded
value `0`), bounce-back writes `1` and anti-bounce-back writes `3`. -/
theorem C3_anti_bounce_back_rule_witness :
    bounce_back_update (bounce_back_set_rhs (bounce_back_set_iload bW3)) fW0
      (bW3.istore.getD 0 pd) = 1 ∧
    anti_bounce_back_update (anti_bounce_back_set_rhs (bounce_back_set_iload bW3))
      fW0 (bW3.istore.getD 0 pd) = 3 :=
  (C3_anti_bounce_back_rule bW3 (by decide) rfl).2 fW0 0 (by decide) (by decide)
    (by decide) (by decide)

/-- Witness for C6 on the concrete domain `dW` and configuration `dicoW`. -/
theorem C6_boundary_compile_deterministic_order_witness :
    boundaryCompile dW stW dicoW = boundaryCompile dW stW dicoW ∧
    ∃ ts, boundaryCompile dW stW dicoW = .ok ts ∧
      ∀ m, lookupTable m ts =
        concatTables (((flatChunksOver dW stW dicoW dW.labels).filter
          (fun e => decide (e.1 = m))).map Prod.snd) :=
  C6_boundary_compile_deterministic_order dW stW dicoW (by decide)

/-- Witness for C7: no update variant touches the position `(9, 9)`, which
is outside `bW`'s destination table. -/
theorem C7_update_frame_witness :
    bounce_back_update bW fW3 (9, [9]) = fW3 (9, [9]) ∧
    Bouzidi_update bW fW3 (9, [9]) = fW3 (9, [9]) ∧
    anti_bounce_back_update bW fW3 (9, [9]) = fW3 (9, [9]) ∧
    Bouzidi_anti_update bW fW3 (9, [9]) = fW3 (9, [9]) ∧
    Neumann_update bW fW3 (9, [9]) = fW3 (9, [9]) :=
  ⟨C7_update_frame.1 bW fW3 (9, [9]) (by decide),
   (C7_update_frame.2).1 bW fW3 (9, [9]) (by decide),
   ((C7_update_frame.2).2).1 bW fW3 (9, [9]) (by decide),
   (((C7_update_frame.2).2).2).1 bW fW3 (9, [9]) (by decide),
   (((C7_update_frame.2).2).2).2 bW fW3 (9, [9]) (by decide)⟩

/-- Witness for C9 on `bW` (whose `iload` list is empty). -/
theorem C9_set_iload_idempotent_witness :
    (bounce_back_set_iload (bounce_back_set_iload bW)).iload.getD 0 [] =
      (bounce_back_set_iload bW).iload.getD 0 [] :=
  (C9_set_iload_idempotent bW rfl).1

/-- Witness for C10: filtering the reserved label of `dW` changes nothing,
and compiling the unconfigured label `3` errors. -/
theorem C10_missing_config_raises_witness :
    (compileGo dW stW dicoW
        (([0, -1] : List Int).filter (fun l => decide (l ≠ -1 ∧ l ≠ -2))) [] =
      compileGo dW stW dicoW [0, -1] []) ∧
    ∃ e, compileGo dW stW dicoW [3] [] = .error e :=
  ⟨(C10_missing_config_raises dW stW dicoW).1 [0, -1] [],
   (C10_missing_config_raises dW stW dicoW).2 [3] [] (by decide)⟩

end PyLBM
